import Mathlib

/-
Verification of the spacer-allocation engine of
`BK_ShopReady_FinalWithToggles_UISpaced.py`.

Shallow embedding conventions:
* Python floats (spacer thicknesses, targets, tolerances) are modelled as
  exact rationals (`ℚ`).
* A Python `dict` / `collections.Counter` keyed by floats is modelled as an
  association list `List (ℚ × ℤ)` in insertion order; `Counter` values are
  machine integers and may in principle become negative, hence `ℤ`.
  Indexing a `Counter` at a missing key yields `0`.
* Mutation of object fields is modelled by explicit state passing: each
  embedded operation returns the new values of the fields the Python code
  assigns to.
* A Python exception (`raise ValueError`) is modelled by an error value that
  carries the state of the mutated fields at the moment the exception
  propagates.

The Rat arithmetic operations are `@[irreducible]` in the library, which
blocks `decide`-style evaluation of the executable model on concrete inputs;
restore the default reducibility locally.
-/

attribute [local semireducible] Rat.add Rat.mul Rat.sub Rat.inv Rat.ofScientific

/-- Inventory pool: a Python dict mapping a spacer size to its count, in
insertion order (`SpacerInventory.metal` / `SpacerInventory.plastic`). -/
abbrev Pool := List (ℚ × ℤ)

/-- Counter lookup `inv[k]`: the stored value of the first entry for key `k`,
and `0` when the key is absent. -/
def invGet (inv : Pool) (k : ℚ) : ℤ :=
  match inv.find? (fun q => decide (q.1 = k)) with
  | some q => q.2
  | none => 0

/-- Python `k in inv`: key membership, irrespective of the stored count. -/
def invHasKey (inv : Pool) (k : ℚ) : Bool :=
  (inv.find? (fun q => decide (q.1 = k))).isSome

/-- Python `inv[k] -= 1` on an existing key: decrement the entry for `k`
(the first one, matching dict semantics), leaving other entries unchanged. -/
def invDec : Pool → ℚ → Pool
  | [], _ => []
  | (a, n) :: rest, k =>
    if a = k then (a, n - 1) :: rest else (a, n) :: invDec rest k

/-- Python `Counter.__add__` (`metal_inv + plastic_inv`): pointwise sum that
keeps only entries whose resulting count is positive; entries of the left
operand come first (in its order), then entries present only in the right. -/
def invAdd (a b : Pool) : Pool :=
  (a.map (fun q => (q.1, q.2 + invGet b q.1))).filter (fun q => decide (0 < q.2))
    ++ b.filter (fun q => !(invHasKey a q.1) && decide (0 < q.2))

/-- The keys with positive count, in dict order:
`[k for k, v in inv.items() if v > 0]`. -/
def posKeys (inv : Pool) : List ℚ :=
  (inv.filter (fun q => decide (0 < q.2))).map Prod.fst

/-- Well-formedness of a dict: its keys are pairwise distinct.  This holds for
every dict a Python program can build. -/
def PoolWF (inv : Pool) : Prop := (inv.map Prod.fst).Nodup

/-- Decidability of pool well-formedness, for concrete instantiations. -/
instance (inv : Pool) : Decidable (PoolWF inv) :=
  inferInstanceAs (Decidable (inv.map Prod.fst).Nodup)

/-- Python `sorted(keys, reverse=True)`. -/
def sortDesc (l : List ℚ) : List ℚ := l.insertionSort (· ≥ ·)

/-- Helper for `cwr`: the combinations-with-replacement of `x :: xs` of size
`r`, given the function `rest` producing those of `xs`.  Structured as nested
structural recursions so that it evaluates by kernel reduction. -/
def cwrCons (x : ℚ) (rest : ℕ → List (List ℚ)) : ℕ → List (List ℚ)
  | 0 => [[]]
  | r + 1 => ((cwrCons x rest r).map (fun c => x :: c)) ++ rest (r + 1)

/-- `itertools.combinations_with_replacement(pool, r)`: the multisets of size
`r` drawn from `pool` with repetition, represented as lists that follow the
order of `pool`, enumerated in the order of the Python iterator.  It satisfies
`cwr (x :: xs) (r+1) = (cwr (x :: xs) r).map (x :: ·) ++ cwr xs (r+1)`. -/
def cwr : List ℚ → ℕ → List (List ℚ)
  | [], 0 => [[]]
  | [], _ + 1 => []
  | x :: xs, r => cwrCons x (cwr xs) r

/-- The candidate combos examined by one search pass of `find_spacer_combo`,
in examination order: `for r in range(1, max_stack + 1)` ascending, and within
one `r` the `combinations_with_replacement` order. -/
def candidates (keys : List ℚ) : ℕ → List (List ℚ)
  | 0 => []
  | n + 1 => candidates keys n ++ cwr keys (n + 1)

/-- Python `round(x, 4)` applied to a candidate's sum.  The source rounds
half-to-even on binary floats; on exact rationals whose denominator divides
10000 (every sum of 4-decimal spacer sizes) no tie can occur, so the
tie-breaking rule is immaterial; round-half-up is used here. -/
def round4 (q : ℚ) : ℚ := (round (q * 10000) : ℤ) / 10000

/-- The tolerance-band test of `find_spacer_combo`:
`(target - tol_minus) <= total <= (target + tol_plus)` where
`total = round(sum(combo), 4)`. -/
def acceptBand (target tolPlus tolMinus : ℚ) (combo : List ℚ) : Bool :=
  decide (target - tolMinus ≤ round4 combo.sum)
    && decide (round4 combo.sum ≤ target + tolPlus)

/-- The multiplicity test of `find_spacer_combo`:
`tmp = Counter(combo); all(tmp[k] <= inv[k] for k in tmp)`.  Iterating over
all elements of the combo is equivalent to iterating over its distinct
elements, since the test for `k` depends only on `k`. -/
def availOK (inv : Pool) (combo : List ℚ) : Bool :=
  combo.all (fun k => decide ((combo.count k : ℤ) ≤ invGet inv k))

/-- One full pass of `find_spacer_combo` over a key list: scan cardinalities
`r = 1 .. maxStack` in increasing order and, inside each `r`, the
combinations-with-replacement of `keys`; return the first combo that passes
both the tolerance-band test and the multiplicity test against `inv`. -/
def searchPass (target tolPlus tolMinus : ℚ) (inv : Pool) (keys : List ℚ)
    (maxStack : ℕ) : Option (List ℚ) :=
  (candidates keys maxStack).find?
    (fun c => acceptBand target tolPlus tolMinus c && availOK inv c)

/-- `SpacerCalculatorApp.find_spacer_combo`.  The first two arguments are the
values of the `Minimize Plastic Shims` and `Smart Inventory Balancing`
toggles, which the source reads into local variables at the start of the
function and never uses again.  The preferred pass searches the metal keys
with positive count (descending) against the metal pool; the second pass
searches the keys of `metal_inv + plastic_inv` (Counter sum, descending)
against that summed pool.  The Boolean of the result is `True` for a
preferred-pass result and `False` for a second-pass result. -/
def find_spacer_combo (minimize_shims smart_balance : Bool)
    (target tolPlus tolMinus : ℚ) (metal_inv plastic_inv : Pool)
    (prefer_metal : Bool) (max_stack : ℕ) : Option (List ℚ × Bool) :=
  let _minimize_shims := minimize_shims
  let _smart_balance := smart_balance
  let keys_metal := sortDesc (posKeys metal_inv)
  let keys_all := sortDesc (posKeys (invAdd metal_inv plastic_inv))
  match (if prefer_metal then
          searchPass target tolPlus tolMinus metal_inv keys_metal max_stack
         else none) with
  | some c => some (c, true)
  | none =>
    match searchPass target tolPlus tolMinus (invAdd metal_inv plastic_inv)
        keys_all max_stack with
    | some c => some (c, false)
    | none => none

/-- Loop body of `SpacerInventory.use_spacers`: walk the combo, decrementing
the metal counter when its count for the size is positive, else the plastic
counter, else raise `ValueError` (modelled as `some sz` in the first
component).  The second and third components are the values of the
`self.metal` / `self.plastic` fields when the call returns or the exception
propagates. -/
def use_spacers_go : Pool → Pool → List ℚ → Option ℚ × Pool × Pool
  | m, p, [] => (none, m, p)
  | m, p, sz :: rest =>
    if 0 < invGet m sz then use_spacers_go (invDec m sz) p rest
    else if 0 < invGet p sz then use_spacers_go m (invDec p sz) rest
    else (some sz, m, p)

/-- `SpacerInventory.use_spacers(combo)`.  The local `inv = self.metal +
self.plastic` of the source is computed and never used.  (`self.save()` is
persistence glue outside the engine.) -/
def use_spacers (m p : Pool) (combo : List ℚ) : Option ℚ × Pool × Pool :=
  let _inv := invAdd m p
  use_spacers_go m p combo

/-- `SpacerCalculatorApp.get_deflection_offset(material, thickness)`.  The
`float(thickness)` conversion cannot fail here because the embedded thickness
is already numeric, so the `except` branch is unreachable. -/
def get_deflection_offset (material : String) (thickness : ℚ) : ℚ :=
  if material = "Aluminum" then 0.0005
  else if material = "Galvanized" ∨ material = "Stainless" then
    (if 0.030 < thickness then 0.0015 else 0.0010)
  else 0

/-- The parsed job inputs consumed by `calculate_spacers` (field parsing from
the Tk entry strings is UI glue outside the engine; `cuts` is the expanded
width-times-count list). -/
structure Job where
  cuts : List ℚ
  thickness : ℚ
  clearancePct : ℚ
  kf : ℚ
  km : ℚ
  coil_width : ℚ
  coil_weight : ℚ
  tol_plus : ℚ
  tol_minus : ℚ
  material : String
  auto_deflect : Bool
  minimize_shims : Bool
  smart_balance : Bool
deriving DecidableEq

/-- The persistent `SpacerInventory` state: its `metal` and `plastic` dicts. -/
structure Ledger where
  metal : Pool
  plastic : Pool
deriving DecidableEq

/-- What `calculate_spacers` records for one cut: the structured content of
the `top_lines` / `bottom_lines` entries it appends (female sum and male
target are the numbers it formats into those lines). -/
structure CutRecord where
  index : ℕ
  femaleCombo : List ℚ
  femaleSum : ℚ
  maleTarget : ℚ
  maleCombo : List ℚ
  femaleOnTop : Bool
deriving DecidableEq

/-- The outputs of one successful `calculate_spacers` run. -/
structure RunResult where
  shoulderTarget : ℚ
  shoulderCombo : List ℚ
  cutRecords : List CutRecord
  scrap : ℚ
deriving DecidableEq

/-- `clearance = thickness * (clearance_pct / 100)`. -/
def jobClearance (job : Job) : ℚ := job.thickness * (job.clearancePct / 100)

/-- The per-run deflection offset: `0.0`, replaced by
`get_deflection_offset(material, thickness)` when the auto-deflect toggle is
set.  Computed once per `calculate_spacers` run. -/
def runOffset (job : Job) : ℚ :=
  if job.auto_deflect then get_deflection_offset job.material job.thickness
  else 0

/-- The shoulder-stack decrement loop of `calculate_spacers`
(`if sz in job_metal: job_metal[sz] -= 1 elif sz in job_plastic: ...`).
Note: unlike the per-cut loops below, it tests only key membership, not
count positivity. -/
def shoulderDecrement (jm jp : Pool) (combo : List ℚ) : Pool × Pool :=
  combo.foldl
    (fun s sz =>
      if invHasKey s.1 sz then (invDec s.1 sz, s.2)
      else if invHasKey s.2 sz then (s.1, invDec s.2 sz)
      else s)
    (jm, jp)

/-- The female/male decrement loops of `calculate_spacers`
(`if sz in job_metal and job_metal[sz] > 0: ...`). -/
def cutDecrement (jm jp : Pool) (combo : List ℚ) : Pool × Pool :=
  combo.foldl
    (fun s sz =>
      if invHasKey s.1 sz && decide (0 < invGet s.1 sz) then (invDec s.1 sz, s.2)
      else if invHasKey s.2 sz && decide (0 < invGet s.2 sz) then (s.1, invDec s.2 sz)
      else s)
    (jm, jp)

/-- The `for i, cut in enumerate(cuts, 1)` loop of `calculate_spacers`:
find and commit the female stack, derive the male target from the achieved
female sum plus the run's deflection offset, find and commit the male stack
with the fixed tight tolerance `(0.001, 0.001)`. -/
def cutsLoop (ms ss : Bool) (tp tm offset kf km clearance : ℚ) :
    List (ℕ × ℚ) → Pool → Pool → Except String (List CutRecord × Pool × Pool)
  | [], jm, jp => .ok ([], jm, jp)
  | (i, cut) :: rest, jm, jp =>
    match find_spacer_combo ms ss cut tp tm jm jp true 8 with
    | none => .error "No valid spacer combo found for cut with current inventory."
    | some (female_combo, _) =>
      let s1 := cutDecrement jm jp female_combo
      let female_sum := female_combo.sum + offset
      let male_target := female_sum - (kf + km + 2 * clearance)
      match find_spacer_combo ms ss male_target 0.001 0.001 s1.1 s1.2 true 8 with
      | none =>
        .error "No valid male spacer combo found after assigning female stack."
      | some (male_combo, _) =>
        let s2 := cutDecrement s1.1 s1.2 male_combo
        match cutsLoop ms ss tp tm offset kf km clearance rest s2.1 s2.2 with
        | .error e => .error e
        | .ok (recs, jm2, jp2) =>
          .ok (⟨i, female_combo, female_sum, male_target, male_combo,
                decide (i % 2 = 1)⟩ :: recs, jm2, jp2)

/-- `SpacerCalculatorApp.calculate_spacers`.  The run works on copies
`job_metal = self.inventory.metal.copy()` / `job_plastic = ...` of the
persistent ledger; the second component of the result is the value of
`self.inventory` when the method returns (the method never assigns to it),
whether the run succeeds or aborts with an error at any stage.  The summary /
canvas bookkeeping (`used_spacers`, string formatting, drawing) is UI glue
and is represented by the structured `RunResult`. -/
def calculate_spacers (job : Job) (inv : Ledger) :
    Except String RunResult × Ledger :=
  let total_cut_width := job.cuts.sum
  let clearance := jobClearance job
  let deflect_offset := runOffset job
  let job_metal := inv.metal
  let job_plastic := inv.plastic
  let shoulder_clearance := clearance + job.kf
  match find_spacer_combo job.minimize_shims job.smart_balance
      shoulder_clearance 0.001 0.001 job_metal job_plastic true 8 with
  | none => (.error "No spacers found for shoulder", inv)
  | some (s_combo, _) =>
    let s := shoulderDecrement job_metal job_plastic s_combo
    match cutsLoop job.minimize_shims job.smart_balance job.tol_plus
        job.tol_minus deflect_offset job.kf job.km clearance
        (List.enumFrom 1 job.cuts) s.1 s.2 with
    | .error e => (.error e, inv)
    | .ok (recs, _, _) =>
      let scrap := if job.coil_width ≠ 0 then job.coil_width - total_cut_width
                   else 0
      (.ok ⟨shoulder_clearance, s_combo, recs, scrap⟩, inv)

/-- A concrete one-cut job used to exercise the pipeline: no deflection, zero
clearance, knife thicknesses 1, one cut of width 3, tolerances 0. -/
def exampleJob : Job :=
  ⟨[3], 0, 0, 1, 1, 0, 0, 0, 0, "Aluminum", false, true, true⟩

/-- A concrete ledger for `exampleJob`: ten metal spacers of size 1. -/
def exampleLedger : Ledger := ⟨[(1, 10)], []⟩

/-!  Basic lemmas about the embedded data structures. -/

lemma find?_append_cases {α : Type} {p : α → Bool} {l₁ l₂ : List α} {c : α}
    (h : (l₁ ++ l₂).find? p = some c) :
    l₁.find? p = some c ∨ (l₁.find? p = none ∧ l₂.find? p = some c) := by
  induction l₁ with
  | nil => exact Or.inr ⟨rfl, by simpa using h⟩
  | cons a u ih =>
    cases hpa : p a with
    | false =>
      rw [List.cons_append, List.find?_cons_of_neg _ (by simp [hpa])] at h
      rcases ih h with h1 | ⟨h1, h2⟩
      · exact Or.inl (by rw [List.find?_cons_of_neg _ (by simp [hpa])]; exact h1)
      · exact Or.inr ⟨by rw [List.find?_cons_of_neg _ (by simp [hpa])]; exact h1, h2⟩
    | true =>
      rw [List.cons_append, List.find?_cons_of_pos _ hpa] at h
      exact Or.inl (by rw [List.find?_cons_of_pos _ hpa]; exact h)

lemma find?_split {α : Type} {p : α → Bool} {l : List α} {c : α}
    (h : l.find? p = some c) :
    ∃ l₁ l₂, l = l₁ ++ c :: l₂ ∧ p c = true ∧ ∀ y ∈ l₁, p y = false := by
  induction l with
  | nil => simp [List.find?] at h
  | cons a u ih =>
    cases hpa : p a with
    | false =>
      rw [List.find?_cons_of_neg _ (by simp [hpa])] at h
      obtain ⟨l₁, l₂, rfl, hc, hl₁⟩ := ih h
      refine ⟨a :: l₁, l₂, rfl, hc, ?_⟩
      intro y hy
      rcases List.mem_cons.mp hy with rfl | hy2
      · exact hpa
      · exact hl₁ y hy2
    | true =>
      rw [List.find?_cons_of_pos _ hpa] at h
      injection h with h
      subst h
      exact ⟨[], u, rfl, hpa, by simp⟩

lemma acceptBand_perm {t tp tm : ℚ} {s c : List ℚ} (h : s.Perm c) :
    acceptBand t tp tm s = acceptBand t tp tm c := by
  unfold acceptBand
  rw [h.sum_eq]

lemma availOK_perm {inv : Pool} {s c : List ℚ} (h : s.Perm c)
    (hc : availOK inv c = true) : availOK inv s = true := by
  rw [availOK, List.all_eq_true] at hc ⊢
  intro x hx
  have hxc := h.mem_iff.mp hx
  have h2 := hc x hxc
  rw [decide_eq_true_iff] at h2 ⊢
  rwa [h.count_eq]

lemma sortDesc_perm (l : List ℚ) : (sortDesc l).Perm l :=
  List.perm_insertionSort _ l

lemma sortDesc_sorted (l : List ℚ) : (sortDesc l).Pairwise (· ≥ ·) :=
  List.sorted_insertionSort _ l

lemma sortDesc_strict {l : List ℚ} (h : l.Nodup) :
    (sortDesc l).Pairwise (· > ·) := by
  have h2 : (sortDesc l).Nodup := (sortDesc_perm l).nodup_iff.mpr h
  exact ((sortDesc_sorted l).and h2).imp
    (fun hab => lt_of_le_of_ne hab.1 (Ne.symm hab.2))

lemma posKeys_nodup {inv : Pool} (h : PoolWF inv) : (posKeys inv).Nodup :=
  h.sublist ((List.filter_sublist inv).map Prod.fst)

lemma mem_posKeys_of_get_pos {inv : Pool} {k : ℚ} (h : 0 < invGet inv k) :
    k ∈ posKeys inv := by
  unfold invGet at h
  rcases hf : inv.find? (fun q => decide (q.1 = k)) with _ | e
  · rw [hf] at h
    exact absurd h (lt_irrefl 0)
  · rw [hf] at h
    have he : e ∈ inv := List.mem_of_find?_eq_some hf
    have hk : e.1 = k := by simpa using List.find?_some hf
    subst hk
    exact List.mem_map.mpr ⟨e, List.mem_filter.mpr ⟨he, by simpa using h⟩, rfl⟩

lemma invHasKey_iff_mem {inv : Pool} {k : ℚ} :
    invHasKey inv k = true ↔ k ∈ inv.map Prod.fst := by
  unfold invHasKey
  rw [Option.isSome_iff_exists]
  constructor
  · rintro ⟨e, he⟩
    have h1 : e ∈ inv := List.mem_of_find?_eq_some he
    have h2 : e.1 = k := by simpa using List.find?_some he
    exact h2 ▸ List.mem_map_of_mem Prod.fst h1
  · intro hk
    rcases List.mem_map.mp hk with ⟨e, he, rfl⟩
    rcases hf : inv.find? (fun q => decide (q.1 = e.1)) with _ | f
    · have := List.find?_eq_none.mp hf e he
      simp at this
    · exact ⟨f, hf⟩

lemma invAdd_WF {a b : Pool} (ha : PoolWF a) (hb : PoolWF b) :
    PoolWF (invAdd a b) := by
  unfold PoolWF invAdd at *
  rw [List.map_append, List.nodup_append]
  refine ⟨?_, ?_, ?_⟩
  · have h1 : (((a.map fun q => (q.1, q.2 + invGet b q.1)).filter
          fun q => decide (0 < q.2)).map Prod.fst).Sublist
        ((a.map fun q => (q.1, q.2 + invGet b q.1)).map Prod.fst) :=
      (List.filter_sublist _).map Prod.fst
    have h2 : ((a.map fun q => (q.1, q.2 + invGet b q.1)).map Prod.fst)
        = a.map Prod.fst := by
      rw [List.map_map]
      congr 1
    exact ha.sublist (h2 ▸ h1)
  · exact hb.sublist ((List.filter_sublist b).map Prod.fst)
  · intro x hx1 hx2
    rcases List.mem_map.mp hx1 with ⟨e, he, rfl⟩
    rcases List.mem_map.mp hx2 with ⟨f, hf, hfx⟩
    have he2 := List.mem_filter.mp he
    have hf2 := List.mem_filter.mp hf
    rcases List.mem_map.mp he2.1 with ⟨e0, he0, rfl⟩
    have hkey : invHasKey a f.1 = false := by
      have := hf2.2
      rw [Bool.and_eq_true] at this
      rcases this with ⟨hneg, _⟩
      simpa using hneg
    have hmem : invHasKey a f.1 = true := by
      rw [invHasKey_iff_mem, hfx]
      exact List.mem_map.mpr ⟨e0, he0, rfl⟩
    rw [hkey] at hmem
    exact Bool.false_ne_true hmem

/-!  Enumeration lemmas for `cwr` and `candidates`. -/

lemma cwr_zero (keys : List ℚ) : cwr keys 0 = [[]] := by
  cases keys <;> rfl

lemma cwr_nil_succ (r : ℕ) : cwr [] (r + 1) = [] := rfl

lemma cwr_cons_succ (x : ℚ) (xs : List ℚ) (r : ℕ) :
    cwr (x :: xs) (r + 1)
      = ((cwr (x :: xs) r).map (fun c => x :: c)) ++ cwr xs (r + 1) := rfl

lemma cwr_length : ∀ (r : ℕ) (keys s : List ℚ), s ∈ cwr keys r → s.length = r := by
  intro r
  induction r with
  | zero =>
    intro keys s hs
    rw [cwr_zero] at hs
    simp only [List.mem_singleton] at hs
    simp [hs]
  | succ r ih =>
    intro keys
    induction keys with
    | nil =>
      intro s hs
      rw [cwr_nil_succ] at hs
      simp at hs
    | cons x xs ihk =>
      intro s hs
      rw [cwr_cons_succ] at hs
      rcases List.mem_append.mp hs with h1 | h2
      · rcases List.mem_map.mp h1 with ⟨c, hc, rfl⟩
        simp [ih (x :: xs) c hc]
      · exact ihk s h2

lemma cwr_mem_keys :
    ∀ (r : ℕ) (keys s : List ℚ), s ∈ cwr keys r → ∀ x ∈ s, x ∈ keys := by
  intro r
  induction r with
  | zero =>
    intro keys s hs
    rw [cwr_zero] at hs
    simp only [List.mem_singleton] at hs
    subst hs
    simp
  | succ r ih =>
    intro keys
    induction keys with
    | nil =>
      intro s hs
      rw [cwr_nil_succ] at hs
      simp at hs
    | cons x xs ihk =>
      intro s hs
      rw [cwr_cons_succ] at hs
      rcases List.mem_append.mp hs with h1 | h2
      · rcases List.mem_map.mp h1 with ⟨c, hc, rfl⟩
        intro y hy
        rcases List.mem_cons.mp hy with h3 | hy2
        · rw [h3]
          exact List.mem_cons_self _ _
        · exact ih _ c hc y hy2
      · intro y hy
        exact List.mem_cons_of_mem x (ihk s h2 y hy)

lemma cwr_complete :
    ∀ (r : ℕ) (keys : List ℚ), keys.Pairwise (· > ·) →
      ∀ s : List ℚ, s.Pairwise (· ≥ ·) → (∀ x ∈ s, x ∈ keys) →
        s.length = r → s ∈ cwr keys r := by
  intro r
  induction r with
  | zero =>
    intro keys _ s _ _ hlen
    rw [List.length_eq_zero] at hlen
    subst hlen
    rw [cwr_zero]
    simp
  | succ r ih =>
    intro keys
    induction keys with
    | nil =>
      intro _ s _ hmem hlen
      cases s with
      | nil => simp at hlen
      | cons a as => exact absurd (hmem a (List.mem_cons_self a as)) (by simp)
    | cons k ks ihk =>
      intro hk s hs hmem hlen
      cases s with
      | nil => simp at hlen
      | cons a as =>
        rw [cwr_cons_succ]
        by_cases hak : a = k
        · subst hak
          have has : as ∈ cwr (a :: ks) r := by
            apply ih (a :: ks) hk as ((List.pairwise_cons.mp hs).2)
            · intro x hx
              exact hmem x (List.mem_cons_of_mem a hx)
            · simpa using hlen
          exact List.mem_append.mpr
            (Or.inl (List.mem_map.mpr ⟨as, has, rfl⟩))
        · have hka : k > a := by
            rcases List.mem_cons.mp (hmem a (List.mem_cons_self a as)) with h1 | h1
            · exact absurd h1 hak
            · exact (List.pairwise_cons.mp hk).1 a h1
          have hmem2 : ∀ x ∈ a :: as, x ∈ ks := by
            intro x hx
            rcases List.mem_cons.mp (hmem x hx) with rfl | h1
            · exfalso
              rcases List.mem_cons.mp hx with h2 | h2
              · exact hak h2.symm
              · have hax : a ≥ x := (List.pairwise_cons.mp hs).1 x h2
                exact absurd (lt_of_le_of_lt hax hka) (lt_irrefl _)
            · exact h1
          exact List.mem_append.mpr
            (Or.inr (ihk ((List.pairwise_cons.mp hk).2) (a :: as) hs hmem2 hlen))

lemma mem_candidates_bounds :
    ∀ (n : ℕ) {keys s : List ℚ}, s ∈ candidates keys n →
      1 ≤ s.length ∧ s.length ≤ n := by
  intro n
  induction n with
  | zero =>
    intro keys s hs
    simp [candidates] at hs
  | succ n ih =>
    intro keys s hs
    rw [candidates] at hs
    rcases List.mem_append.mp hs with h1 | h2
    · have := ih h1
      omega
    · have := cwr_length (n + 1) keys s h2
      omega

lemma cwr_subset_candidates :
    ∀ (n r : ℕ), 1 ≤ r → r ≤ n → ∀ {keys s : List ℚ},
      s ∈ cwr keys r → s ∈ candidates keys n := by
  intro n
  induction n with
  | zero => intro r h1 h2; omega
  | succ n ih =>
    intro r h1 h2 keys s hs
    rw [candidates]
    rcases Nat.lt_or_ge r (n + 1) with h3 | h3
    · exact List.mem_append.mpr (Or.inl (ih r h1 (by omega) hs))
    · have : r = n + 1 := by omega
      subst this
      exact List.mem_append.mpr (Or.inr hs)

lemma find?_candidates_min {p : List ℚ → Bool} {keys : List ℚ} {n : ℕ}
    {c : List ℚ} (h : (candidates keys n).find? p = some c) :
    ∀ s ∈ candidates keys n, s.length < c.length → p s = false := by
  induction n with
  | zero => simp [candidates, List.find?] at h
  | succ n ih =>
    rw [candidates] at h
    rcases find?_append_cases h with h1 | ⟨h1, h2⟩
    · intro s hs hlt
      have hcb := mem_candidates_bounds n (List.mem_of_find?_eq_some h1)
      rw [candidates] at hs
      rcases List.mem_append.mp hs with hs1 | hs2
      · exact ih h1 s hs1 hlt
      · have := cwr_length (n + 1) keys s hs2
        omega
    · intro s hs hlt
      have hclen := cwr_length (n + 1) keys c (List.mem_of_find?_eq_some h2)
      rw [candidates] at hs
      rcases List.mem_append.mp hs with hs1 | hs2
      · exact Bool.eq_false_iff.mpr (List.find?_eq_none.mp h1 s hs1)
      · have := cwr_length (n + 1) keys s hs2
        omega

/-!  Properties of `searchPass` and `find_spacer_combo`. -/

lemma searchPass_some_props {t tp tm : ℚ} {inv : Pool} {keys : List ℚ}
    {k : ℕ} {c : List ℚ} (h : searchPass t tp tm inv keys k = some c) :
    acceptBand t tp tm c = true ∧ availOK inv c = true ∧
      c ∈ candidates keys k := by
  unfold searchPass at h
  have h1 := List.find?_some h
  have h2 := List.mem_of_find?_eq_some h
  rw [Bool.and_eq_true] at h1
  exact ⟨h1.1, h1.2, h2⟩

lemma searchPass_none_no_combo {t tp tm : ℚ} {inv : Pool} {keys : List ℚ}
    {k : ℕ} (h : searchPass t tp tm inv keys k = none)
    (hkeys : keys.Pairwise (· > ·))
    {c2 : List ℚ} (hne : c2 ≠ []) (hlen : c2.length ≤ k)
    (hmem : ∀ x ∈ c2, x ∈ keys)
    (hband : acceptBand t tp tm c2 = true)
    (havail : availOK inv c2 = true) : False := by
  unfold searchPass at h
  have hall := List.find?_eq_none.mp h
  have hperm : (sortDesc c2).Perm c2 := sortDesc_perm c2
  have hscwr : sortDesc c2 ∈ cwr keys c2.length :=
    cwr_complete c2.length keys hkeys (sortDesc c2) (sortDesc_sorted c2)
      (fun x hx => hmem x (hperm.mem_iff.mp hx)) hperm.length_eq
  have h0 : 1 ≤ c2.length := List.length_pos.mpr hne
  have hcand : sortDesc c2 ∈ candidates keys k :=
    cwr_subset_candidates k c2.length h0 hlen hscwr
  have hps : (acceptBand t tp tm (sortDesc c2) && availOK inv (sortDesc c2))
      = true := by
    rw [Bool.and_eq_true, acceptBand_perm hperm]
    exact ⟨hband, availOK_perm hperm havail⟩
  exact hall _ hcand hps

lemma searchPass_some_minimal {t tp tm : ℚ} {inv : Pool} {keys : List ℚ}
    {k : ℕ} {c : List ℚ} (h : searchPass t tp tm inv keys k = some c)
    (hkeys : keys.Pairwise (· > ·))
    {c2 : List ℚ} (hne : c2 ≠ []) (hlen : c2.length < c.length)
    (hmem : ∀ x ∈ c2, x ∈ keys)
    (hband : acceptBand t tp tm c2 = true)
    (havail : availOK inv c2 = true) : False := by
  have hck : c.length ≤ k :=
    (mem_candidates_bounds k (searchPass_some_props h).2.2).2
  unfold searchPass at h
  have hperm : (sortDesc c2).Perm c2 := sortDesc_perm c2
  have hscwr : sortDesc c2 ∈ cwr keys c2.length :=
    cwr_complete c2.length keys hkeys (sortDesc c2) (sortDesc_sorted c2)
      (fun x hx => hmem x (hperm.mem_iff.mp hx)) hperm.length_eq
  have h0 : 1 ≤ c2.length := List.length_pos.mpr hne
  have hcand : sortDesc c2 ∈ candidates keys k :=
    cwr_subset_candidates k c2.length h0 (by omega) hscwr
  have hlt : (sortDesc c2).length < c.length := by
    rw [hperm.length_eq]
    exact hlen
  have hfalse := find?_candidates_min h _ hcand hlt
  have hps : (acceptBand t tp tm (sortDesc c2) && availOK inv (sortDesc c2))
      = true := by
    rw [Bool.and_eq_true, acceptBand_perm hperm]
    exact ⟨hband, availOK_perm hperm havail⟩
  rw [hfalse] at hps
  exact Bool.false_ne_true hps

lemma availOK_mem_keys {inv : Pool} {c2 : List ℚ}
    (h : availOK inv c2 = true) :
    ∀ x ∈ c2, x ∈ sortDesc (posKeys inv) := by
  intro x hx
  rw [availOK, List.all_eq_true] at h
  have h1 := h x hx
  rw [decide_eq_true_iff] at h1
  have h2 : 0 < c2.count x := List.count_pos_iff.mpr hx
  have h3 : 0 < invGet inv x := by
    calc (0 : ℤ) < (c2.count x : ℤ) := by exact_mod_cast h2
    _ ≤ invGet inv x := h1
  exact (sortDesc_perm (posKeys inv)).mem_iff.mpr (mem_posKeys_of_get_pos h3)

lemma find_spacer_combo_elim {ms ss : Bool} {t tp tm : ℚ} {M P : Pool}
    {k : ℕ} {c : List ℚ} {b : Bool}
    (h : find_spacer_combo ms ss t tp tm M P true k = some (c, b)) :
    (b = true ∧ searchPass t tp tm M (sortDesc (posKeys M)) k = some c) ∨
    (b = false ∧ searchPass t tp tm M (sortDesc (posKeys M)) k = none ∧
      searchPass t tp tm (invAdd M P) (sortDesc (posKeys (invAdd M P))) k
        = some c) := by
  unfold find_spacer_combo at h
  simp only [if_true] at h
  rcases h1 : searchPass t tp tm M (sortDesc (posKeys M)) k with _ | c0
  · rw [h1] at h
    rcases h2 : searchPass t tp tm (invAdd M P) (sortDesc (posKeys (invAdd M P))) k
        with _ | c1
    · rw [h2] at h
      simp at h
    · rw [h2] at h
      simp only [Option.some.injEq, Prod.mk.injEq] at h
      exact Or.inr ⟨h.2.symm, rfl, by rw [h.1]⟩
  · rw [h1] at h
    simp only [Option.some.injEq, Prod.mk.injEq] at h
    exact Or.inl ⟨h.2.symm, by rw [h.1]⟩

/-!  Pointwise characterisations of the pool operations. -/

lemma invGet_cons (a : ℚ) (x : ℤ) (u : Pool) (j : ℚ) :
    invGet ((a, x) :: u) j = if a = j then x else invGet u j := by
  by_cases haj : a = j
  · rw [if_pos haj]
    unfold invGet
    rw [List.find?_cons_of_pos _ (by simpa using haj)]
  · rw [if_neg haj]
    unfold invGet
    rw [List.find?_cons_of_neg _ (by simpa using haj)]

lemma invHasKey_cons (a : ℚ) (x : ℤ) (u : Pool) (j : ℚ) :
    invHasKey ((a, x) :: u) j = if a = j then true else invHasKey u j := by
  by_cases haj : a = j
  · rw [if_pos haj]
    unfold invHasKey
    rw [List.find?_cons_of_pos _ (by simpa using haj)]
    rfl
  · rw [if_neg haj]
    unfold invHasKey
    rw [List.find?_cons_of_neg _ (by simpa using haj)]

lemma invHasKey_of_get_pos {m : Pool} {k : ℚ} (h : 0 < invGet m k) :
    invHasKey m k = true := by
  unfold invGet at h
  unfold invHasKey
  rcases hf : m.find? (fun q => decide (q.1 = k)) with _ | e
  · rw [hf] at h
    exact absurd h (lt_irrefl 0)
  · rw [hf]
    rfl

lemma invGet_invDec :
    ∀ (m : Pool) (k : ℚ), invHasKey m k = true → ∀ j : ℚ,
      invGet (invDec m k) j
        = if j = k then invGet m j - 1 else invGet m j := by
  intro m
  induction m with
  | nil =>
    intro k h
    simp [invHasKey, List.find?] at h
  | cons e u ih =>
    intro k h j
    obtain ⟨a, n⟩ := e
    unfold invDec
    by_cases hak : a = k
    · rw [if_pos hak]
      by_cases hjk : j = k
      · have haj : a = j := by rw [hak, hjk]
        rw [if_pos hjk, invGet_cons, invGet_cons, if_pos haj, if_pos haj]
      · have haj : ¬ a = j := by
          intro hh
          exact hjk (by rw [← hh, hak])
        rw [if_neg hjk, invGet_cons, invGet_cons, if_neg haj, if_neg haj]
    · rw [if_neg hak]
      have ht : invHasKey u k = true := by
        rw [invHasKey_cons, if_neg hak] at h
        exact h
      by_cases haj : a = j
      · have hjk : ¬ j = k := by
          intro hh
          exact hak (by rw [haj, hh])
        rw [if_neg hjk, invGet_cons, invGet_cons, if_pos haj, if_pos haj]
      · rw [invGet_cons, invGet_cons, if_neg haj, if_neg haj]
        exact ih k ht j

/-!  Behaviour of `use_spacers`. -/

lemma use_spacers_go_counts :
    ∀ (combo : List ℚ) (m p m2 p2 : Pool),
      use_spacers_go m p combo = (none, m2, p2) →
      ∀ k : ℚ, invGet m2 k + invGet p2 k
        = invGet m k + invGet p k - combo.count k := by
  intro combo
  induction combo with
  | nil =>
    intro m p m2 p2 h k
    unfold use_spacers_go at h
    injection h with _ h2
    injection h2 with hm hp
    subst hm
    subst hp
    simp
  | cons sz rest ih =>
    intro m p m2 p2 h k
    unfold use_spacers_go at h
    by_cases h1 : 0 < invGet m sz
    · rw [if_pos h1] at h
      have hrec := ih (invDec m sz) p m2 p2 h k
      have hdec := invGet_invDec m sz (invHasKey_of_get_pos h1) k
      by_cases hks : k = sz
      · rw [if_pos hks] at hdec
        rw [hrec, hdec, hks, List.count_cons_self]
        push_cast
        omega
      · rw [if_neg hks] at hdec
        rw [hrec, hdec, List.count_cons_of_ne hks]
    · rw [if_neg h1] at h
      by_cases h2 : 0 < invGet p sz
      · rw [if_pos h2] at h
        have hrec := ih m (invDec p sz) m2 p2 h k
        have hdec := invGet_invDec p sz (invHasKey_of_get_pos h2) k
        by_cases hks : k = sz
        · rw [if_pos hks] at hdec
          rw [hrec, hdec, hks, List.count_cons_self]
          push_cast
          omega
        · rw [if_neg hks] at hdec
          rw [hrec, hdec, List.count_cons_of_ne hks]
      · rw [if_neg h2] at h
        exact absurd (congrArg Prod.fst h) (by simp)

lemma use_spacers_go_failure :
    ∀ (combo : List ℚ) (m p : Pool) (sz : ℚ) (m2 p2 : Pool),
      use_spacers_go m p combo = (some sz, m2, p2) →
      invGet m2 sz ≤ 0 ∧ invGet p2 sz ≤ 0 ∧
      ∃ pre suf, combo = pre ++ sz :: suf ∧
        use_spacers_go m p pre = (none, m2, p2) := by
  intro combo
  induction combo with
  | nil =>
    intro m p sz m2 p2 h
    unfold use_spacers_go at h
    exact absurd (congrArg Prod.fst h) (by simp)
  | cons a rest ih =>
    intro m p sz m2 p2 h
    unfold use_spacers_go at h
    by_cases h1 : 0 < invGet m a
    · rw [if_pos h1] at h
      obtain ⟨hm, hp, pre, suf, heq, hgo⟩ := ih (invDec m a) p sz m2 p2 h
      refine ⟨hm, hp, a :: pre, suf, by rw [heq, List.cons_append], ?_⟩
      unfold use_spacers_go
      rw [if_pos h1]
      exact hgo
    · rw [if_neg h1] at h
      by_cases h2 : 0 < invGet p a
      · rw [if_pos h2] at h
        obtain ⟨hm, hp, pre, suf, heq, hgo⟩ := ih m (invDec p a) sz m2 p2 h
        refine ⟨hm, hp, a :: pre, suf, by rw [heq, List.cons_append], ?_⟩
        unfold use_spacers_go
        rw [if_neg h1, if_pos h2]
        exact hgo
      · rw [if_neg h2] at h
        injection h with hsz h3
        injection h3 with hm hp
        injection hsz with hsz
        subst hsz
        subst hm
        subst hp
        exact ⟨le_of_not_lt h1, le_of_not_lt h2, [], rest, rfl, rfl⟩

/-!  Characterisations of the acceptance tests, and the band property of
`find_spacer_combo` results. -/

lemma acceptBand_iff {t tp tm : ℚ} {c : List ℚ} :
    acceptBand t tp tm c = true ↔
      t - tm ≤ round4 c.sum ∧ round4 c.sum ≤ t + tp := by
  unfold acceptBand
  rw [Bool.and_eq_true, decide_eq_true_iff, decide_eq_true_iff]

lemma availOK_iff {inv : Pool} {c : List ℚ} :
    availOK inv c = true ↔
      ∀ x ∈ c, (c.count x : ℤ) ≤ invGet inv x := by
  unfold availOK
  simp only [List.all_eq_true, decide_eq_true_eq]

lemma find_spacer_combo_band {ms ss : Bool} {t tp tm : ℚ} {M P : Pool}
    {k : ℕ} {c : List ℚ} {b : Bool}
    (h : find_spacer_combo ms ss t tp tm M P true k = some (c, b)) :
    t - tm ≤ round4 c.sum ∧ round4 c.sum ≤ t + tp := by
  rcases find_spacer_combo_elim h with ⟨_, hs⟩ | ⟨_, _, hs⟩ <;>
    exact acceptBand_iff.mp (searchPass_some_props hs).1

/-!  The per-cut loop of `calculate_spacers`: shape of the records. -/

lemma cutsLoop_records :
    ∀ (cuts : List (ℕ × ℚ)) (ms ss : Bool) (tp tm offset kf km cl : ℚ)
      (jm jp : Pool) (recs : List CutRecord) (jm2 jp2 : Pool),
      cutsLoop ms ss tp tm offset kf km cl cuts jm jp = .ok (recs, jm2, jp2) →
      ∀ cr ∈ recs,
        cr.maleTarget = (cr.femaleCombo.sum + offset) - (kf + km + 2 * cl) ∧
        cr.femaleSum = cr.femaleCombo.sum + offset ∧
        cr.maleTarget - 0.001 ≤ round4 cr.maleCombo.sum ∧
        round4 cr.maleCombo.sum ≤ cr.maleTarget + 0.001 := by
  intro cuts
  induction cuts with
  | nil =>
    intro ms ss tp tm offset kf km cl jm jp recs jm2 jp2 h
    simp only [cutsLoop, Except.ok.injEq, Prod.mk.injEq] at h
    obtain ⟨h1, _, _⟩ := h
    subst h1
    intro cr hcr
    simp at hcr
  | cons head rest ih =>
    intro ms ss tp tm offset kf km cl jm jp recs jm2 jp2 h
    obtain ⟨i, cut⟩ := head
    rcases hf : find_spacer_combo ms ss cut tp tm jm jp true 8 with _ | fc
    · simp only [cutsLoop, hf] at h
      exact absurd h (by simp)
    · obtain ⟨fcombo, ffl⟩ := fc
      simp only [cutsLoop, hf] at h
      rcases hm : find_spacer_combo ms ss
          (fcombo.sum + offset - (kf + km + 2 * cl)) 0.001 0.001
          (cutDecrement jm jp fcombo).1 (cutDecrement jm jp fcombo).2 true 8
          with _ | mc
      · simp only [hm] at h
        exact absurd h (by simp)
      · obtain ⟨mcombo, mfl⟩ := mc
        simp only [hm] at h
        rcases hrec : cutsLoop ms ss tp tm offset kf km cl rest
            (cutDecrement (cutDecrement jm jp fcombo).1
              (cutDecrement jm jp fcombo).2 mcombo).1
            (cutDecrement (cutDecrement jm jp fcombo).1
              (cutDecrement jm jp fcombo).2 mcombo).2 with e | res
        · simp only [hrec] at h
          exact absurd h (by simp)
        · obtain ⟨recs0, jm0, jp0⟩ := res
          simp only [hrec, Except.ok.injEq, Prod.mk.injEq] at h
          obtain ⟨h1, _, _⟩ := h
          subst h1
          intro cr hcr
          rcases List.mem_cons.mp hcr with h2 | h2
          · subst h2
            refine ⟨rfl, rfl, ?_, ?_⟩
            · exact (find_spacer_combo_band hm).1
            · exact (find_spacer_combo_band hm).2
          · exact ih ms ss tp tm offset kf km cl _ _ recs0 jm0 jp0 hrec cr h2

/-!  The second-pass-only shape of `find_spacer_combo` without preference. -/

lemma find_spacer_combo_elim_nopref {ms ss : Bool} {t tp tm : ℚ} {M P : Pool}
    {k : ℕ} {c : List ℚ} {b : Bool}
    (h : find_spacer_combo ms ss t tp tm M P false k = some (c, b)) :
    b = false ∧
      searchPass t tp tm (invAdd M P) (sortDesc (posKeys (invAdd M P))) k
        = some c := by
  unfold find_spacer_combo at h
  simp only [Bool.false_eq_true, if_false] at h
  rcases h2 : searchPass t tp tm (invAdd M P) (sortDesc (posKeys (invAdd M P))) k
      with _ | c1
  · rw [h2] at h
    simp at h
  · rw [h2] at h
    simp only [Option.some.injEq, Prod.mk.injEq] at h
    exact ⟨h.2.symm, by rw [h.1]⟩

/-!  Claim theorems. -/

/-- C1: whenever `find_spacer_combo` returns a combo (rather than `None`),
the combo's sum rounded to 4 decimal places lies within the tolerance band
`target - tol_minus ≤ round4 (sum) ≤ target + tol_plus`, and each size's
multiplicity in the combo is at most its available count in the inventory
view the combo was drawn from: the metal pool for a preferred-pass result
(flag `true`), the Counter-sum `metal_inv + plastic_inv` for a second-pass
result (flag `false`). -/
theorem find_spacer_combo_band_and_avail
    (ms ss pm : Bool) (t tp tm : ℚ) (M P : Pool) (k : ℕ) (c : List ℚ)
    (b : Bool)
    (h : find_spacer_combo ms ss t tp tm M P pm k = some (c, b)) :
    (t - tm ≤ round4 c.sum ∧ round4 c.sum ≤ t + tp) ∧
    (b = true → ∀ x ∈ c, (c.count x : ℤ) ≤ invGet M x) ∧
    (b = false → ∀ x ∈ c, (c.count x : ℤ) ≤ invGet (invAdd M P) x) := by
  cases pm with
  | true =>
    refine ⟨find_spacer_combo_band h, ?_, ?_⟩
    · intro hb
      rcases find_spacer_combo_elim h with ⟨_, hs⟩ | ⟨hb2, _, _⟩
      · exact availOK_iff.mp (searchPass_some_props hs).2.1
      · rw [hb] at hb2
        exact absurd hb2 (by simp)
    · intro hb
      rcases find_spacer_combo_elim h with ⟨hb2, _⟩ | ⟨_, _, hs⟩
      · rw [hb] at hb2
        exact absurd hb2 (by simp)
      · exact availOK_iff.mp (searchPass_some_props hs).2.1
  | false =>
    obtain ⟨hb, hs⟩ := find_spacer_combo_elim_nopref h
    refine ⟨acceptBand_iff.mp (searchPass_some_props hs).1, ?_, ?_⟩
    · intro hb2
      rw [hb2] at hb
      exact absurd hb (by simp)
    · intro _
      exact availOK_iff.mp (searchPass_some_props hs).2.1

/-- C1 witness: the theorem applied to the concrete call with metal pool
`{1: 2}`, empty plastic pool, target 2 and zero tolerances, which returns
the combo `[1, 1]`. -/
theorem find_spacer_combo_band_and_avail_witness :
    (2 : ℚ) - 0 ≤ round4 (List.sum [(1 : ℚ), 1]) ∧
      round4 (List.sum [(1 : ℚ), 1]) ≤ 2 + 0 :=
  (find_spacer_combo_band_and_avail true true true 2 0 0 [(1, 2)] [] 8 [1, 1]
    true (by decide)).1

/-- C2 counterexample: with metal pool `{0.125: 3}`, plastic pool
`{0.25: 2}`, target 0.375 and zero tolerances, the preferred pass returns the
cardinality-3 all-metal combo, yet the cardinality-2 combo `[0.25, 0.125]`
drawn from the metal+plastic union snapshot (both sizes have positive pooled
count) satisfies the band and the union availability limits — refuting
minimality over the union snapshot as the claim states it. -/
theorem find_minimality_cross_pool_cex :
    find_spacer_combo true true 0.375 0 0 [(0.125, 3)] [(0.25, 2)] true 8
      = some ([0.125, 0.125, 0.125], true) ∧
    acceptBand 0.375 0 0 [0.25, 0.125] = true ∧
    availOK (invAdd [(0.125, 3)] [(0.25, 2)]) [0.25, 0.125] = true ∧
    (∀ x ∈ [(0.25 : ℚ), 0.125],
        0 < invGet (invAdd [(0.125, 3)] [(0.25, 2)]) x) ∧
    List.length [(0.25 : ℚ), 0.125]
      < List.length [(0.125 : ℚ), 0.125, 0.125] := by
  exact ⟨by decide, by decide, by decide, by decide, by decide⟩

/-- C2 (amended): minimality relative to the pool the combo was drawn from:
a preferred-pass (pure) result admits no strictly smaller nonempty combo
passing the band test within the metal pool's availability limits, and a
second-pass (mixed) result admits none within the metal+plastic union's
limits.  (Minimality over the union snapshot for pure results fails; see the
counterexample.) -/
theorem find_spacer_combo_minimal_within_pool
    (ms ss : Bool) (t tp tm : ℚ) (M P : Pool) (k : ℕ) (c : List ℚ) (b : Bool)
    (hM : PoolWF M) (hP : PoolWF P)
    (h : find_spacer_combo ms ss t tp tm M P true k = some (c, b)) :
    ∀ c2 : List ℚ, c2 ≠ [] → c2.length < c.length →
      (b = true → ¬(acceptBand t tp tm c2 = true ∧ availOK M c2 = true)) ∧
      (b = false →
        ¬(acceptBand t tp tm c2 = true ∧
          availOK (invAdd M P) c2 = true)) := by
  intro c2 hne hlt
  constructor
  · rintro hb ⟨hband, havail⟩
    rcases find_spacer_combo_elim h with ⟨_, hs⟩ | ⟨hb2, _, _⟩
    · exact searchPass_some_minimal hs (sortDesc_strict (posKeys_nodup hM))
        hne hlt (availOK_mem_keys havail) hband havail
    · rw [hb] at hb2
      exact absurd hb2 (by simp)
  · rintro hb ⟨hband, havail⟩
    rcases find_spacer_combo_elim h with ⟨hb2, _⟩ | ⟨_, _, hs⟩
    · rw [hb] at hb2
      exact absurd hb2 (by simp)
    · exact searchPass_some_minimal hs
        (sortDesc_strict (posKeys_nodup (invAdd_WF hM hP)))
        hne hlt (availOK_mem_keys havail) hband havail

/-- C2 amended witness: the theorem applied to the call with metal pool
`{1: 2}`, target 2, zero tolerances (returning `[1, 1]`), instantiated at
the shorter combo `[1]`. -/
theorem find_spacer_combo_minimal_within_pool_witness :
    (true = true → ¬(acceptBand 2 0 0 [(1 : ℚ)] = true ∧
        availOK [((1 : ℚ), (2 : ℤ))] [(1 : ℚ)] = true)) ∧
    (true = false → ¬(acceptBand 2 0 0 [(1 : ℚ)] = true ∧
        availOK (invAdd [((1 : ℚ), (2 : ℤ))] []) [(1 : ℚ)] = true)) :=
  find_spacer_combo_minimal_within_pool true true 2 0 0 [(1, 2)] [] 8 [1, 1]
    true (by decide) (by decide) (by decide) [1] (by decide) (by decide)

/-- C3 counterexample: reserving `[1, 1]` against metal `{1: 1}` and an empty
plastic pool raises after consuming the first unit: the call fails, yet the
metal counter is left decremented (count 0 instead of 1), so a failed
`use_spacers` is not all-or-nothing. -/
theorem use_spacers_failure_mutates_cex :
    (use_spacers [(1, 1)] [] [1, 1]).1 = some 1 ∧
    (use_spacers [(1, 1)] [] [1, 1]).2.1 ≠ [(1, 1)] ∧
    invGet (use_spacers [(1, 1)] [] [1, 1]).2.1 1 ≠ invGet [(1, 1)] 1 := by
  exact ⟨by decide, by decide, by decide⟩

/-- C3 (amended): a successful `use_spacers` decrements the combined
metal+plastic count of every denomination by exactly its multiplicity in the
combo; a failed call signals the first unavailable size and leaves the
counters in the state reached by reserving the prefix of the combo before
that size (those earlier decrements are retained, not rolled back), with both
counters exhausted (≤ 0) at the failing size. -/
theorem use_spacers_amended (m p : Pool) (combo : List ℚ) :
    (∀ m2 p2, use_spacers m p combo = (none, m2, p2) →
        ∀ k : ℚ, invGet m2 k + invGet p2 k
          = invGet m k + invGet p k - combo.count k) ∧
    (∀ sz m2 p2, use_spacers m p combo = (some sz, m2, p2) →
        invGet m2 sz ≤ 0 ∧ invGet p2 sz ≤ 0 ∧
        ∃ pre suf, combo = pre ++ sz :: suf ∧
          use_spacers_go m p pre = (none, m2, p2)) := by
  constructor
  · intro m2 p2 h k
    exact use_spacers_go_counts combo m p m2 p2 h k
  · intro sz m2 p2 h
    exact use_spacers_go_failure combo m p sz m2 p2 h

/-- C3 amended witness: reserving `[1]` against metal `{1: 2}` succeeds and
decrements the combined count of size 1 by exactly one. -/
theorem use_spacers_amended_witness :
    invGet [((1 : ℚ), (1 : ℤ))] 1 + invGet [] 1
      = invGet [((1 : ℚ), (2 : ℤ))] 1 + invGet [] 1
        - (List.count 1 [(1 : ℚ)] : ℤ) :=
  (use_spacers_amended [(1, 2)] [] [1]).1 [(1, 1)] [] (by decide) 1

/-- C4: material preference: a mixed-pool result (flag `false`) is returned
only when no all-preferred-material combo of any cardinality `1..max_stack`
is feasible — no nonempty combo of length at most `max_stack` passes both
the band test and the metal pool's availability limits. -/
theorem find_spacer_combo_metal_preference
    (ms ss : Bool) (t tp tm : ℚ) (M P : Pool) (k : ℕ) (c : List ℚ)
    (hM : PoolWF M)
    (h : find_spacer_combo ms ss t tp tm M P true k = some (c, false)) :
    ∀ c2 : List ℚ, c2 ≠ [] → c2.length ≤ k →
      ¬(acceptBand t tp tm c2 = true ∧ availOK M c2 = true) := by
  rintro c2 hne hlen ⟨hband, havail⟩
  rcases find_spacer_combo_elim h with ⟨hb2, _⟩ | ⟨_, hnone, _⟩
  · exact absurd hb2 (by simp)
  · exact searchPass_none_no_combo hnone (sortDesc_strict (posKeys_nodup hM))
      hne hlen (availOK_mem_keys havail) hband havail

/-- C4 witness: Example 2 of the spec: metal `{0.125: 1}`, plastic
`{0.125: 5}`, target 0.125, zero tolerances.  The first call returns the
metal `[0.125]` (flag `true`); reserving it decrements metal to 0; the
second call on the updated ledger returns `[0.125]` from the plastic pool
(flag `false`), and the theorem yields that no metal combo was feasible. -/
theorem find_spacer_combo_metal_preference_witness :
    find_spacer_combo true true 0.125 0 0 [(0.125, 1)] [(0.125, 5)] true 8
      = some ([0.125], true) ∧
    use_spacers [(0.125, 1)] [(0.125, 5)] [0.125]
      = (none, [(0.125, 0)], [(0.125, 5)]) ∧
    find_spacer_combo true true 0.125 0 0 [(0.125, 0)] [(0.125, 5)] true 8
      = some ([0.125], false) ∧
    (∀ c2 : List ℚ, c2 ≠ [] → c2.length ≤ 8 →
      ¬(acceptBand 0.125 0 0 c2 = true ∧
        availOK [((0.125 : ℚ), (0 : ℤ))] c2 = true)) :=
  ⟨by decide, by decide, by decide,
    find_spacer_combo_metal_preference true true 0.125 0 0 [(0.125, 0)]
      [(0.125, 5)] 8 [0.125] (by decide) (by decide)⟩

/-- C5 (code-bug evidence): with metal `{0.125: 1}` and plastic
`{0.125: 5}`, a shoulder target of 0.375 makes `find_spacer_combo` return the
mixed combo `[0.125, 0.125, 0.125]`; the shoulder decrement loop of
`calculate_spacers` tests only key membership (`if sz in job_metal`), sends
all three decrements to the metal counter and drives it to −2, violating the
counts-never-negative invariant.  `use_spacers` on the same input, which does
guard on positivity, keeps both counters non-negative. -/
theorem shoulder_decrement_negative_count :
    find_spacer_combo true true 0.375 0.001 0.001 [(0.125, 1)] [(0.125, 5)]
        true 8 = some ([0.125, 0.125, 0.125], false) ∧
    invGet (shoulderDecrement [(0.125, 1)] [(0.125, 5)]
        [0.125, 0.125, 0.125]).1 0.125 = -2 ∧
    use_spacers [(0.125, 1)] [(0.125, 5)] [0.125, 0.125, 0.125]
      = (none, [(0.125, 0)], [(0.125, 3)]) := by
  exact ⟨by decide, by decide, by decide⟩

/-- C6: deterministic tie-break: the combo returned by `find_spacer_combo`
is the first accepted candidate of its pass in the enumeration that scans
cardinalities r = 1 upward and, within each r, the
combinations-with-replacement of that pass's positive-count denominations
sorted descending: every candidate strictly before it in that order fails
the acceptance test. -/
theorem find_spacer_combo_first_accepted
    (ms ss : Bool) (t tp tm : ℚ) (M P : Pool) (k : ℕ) (c : List ℚ) (b : Bool)
    (h : find_spacer_combo ms ss t tp tm M P true k = some (c, b)) :
    (b = true → ∃ l1 l2,
        candidates (sortDesc (posKeys M)) k = l1 ++ c :: l2 ∧
        (acceptBand t tp tm c && availOK M c) = true ∧
        ∀ y ∈ l1, (acceptBand t tp tm y && availOK M y) = false) ∧
    (b = false → ∃ l1 l2,
        candidates (sortDesc (posKeys (invAdd M P))) k = l1 ++ c :: l2 ∧
        (acceptBand t tp tm c && availOK (invAdd M P) c) = true ∧
        ∀ y ∈ l1,
          (acceptBand t tp tm y && availOK (invAdd M P) y) = false) := by
  constructor
  · intro hb
    rcases find_spacer_combo_elim h with ⟨_, hs⟩ | ⟨hb2, _, _⟩
    · unfold searchPass at hs
      exact find?_split hs
    · rw [hb] at hb2
      exact absurd hb2 (by simp)
  · intro hb
    rcases find_spacer_combo_elim h with ⟨hb2, _⟩ | ⟨_, _, hs⟩
    · rw [hb] at hb2
      exact absurd hb2 (by simp)
    · unfold searchPass at hs
      exact find?_split hs

/-- C6 witness: Example 1 of the spec: metal pool `{0.500: 2, 0.250: 1}`,
target 0.750, tolerance (0.001, 0.001) returns exactly `[0.500, 0.250]`
(cardinality 2), and it is the first accepted candidate in enumeration
order. -/
theorem find_spacer_combo_first_accepted_witness :
    find_spacer_combo true true 0.750 0.001 0.001 [(0.500, 2), (0.250, 1)] []
        true 8 = some ([0.500, 0.250], true) ∧
    (∃ l1 l2,
        candidates (sortDesc (posKeys [((0.500 : ℚ), (2 : ℤ)), (0.250, 1)])) 8
          = l1 ++ [(0.500 : ℚ), 0.250] :: l2 ∧
        (acceptBand 0.750 0.001 0.001 [(0.500 : ℚ), 0.250]
            && availOK [((0.500 : ℚ), (2 : ℤ)), (0.250, 1)]
                [(0.500 : ℚ), 0.250]) = true ∧
        ∀ y ∈ l1, (acceptBand 0.750 0.001 0.001 y
            && availOK [((0.500 : ℚ), (2 : ℤ)), (0.250, 1)] y) = false) :=
  ⟨by decide,
    (find_spacer_combo_first_accepted true true 0.750 0.001 0.001
      [(0.500, 2), (0.250, 1)] [] 8 [0.500, 0.250] true (by decide)).1 rfl⟩

/-- C7: frame property: `calculate_spacers` reserves only against the working
copies of the two counters and never writes back, so the persistent ledger
after a run equals the ledger before it, whether the run succeeds or aborts
at the shoulder stage or at any cut. -/
theorem calculate_spacers_preserves_inventory (job : Job) (inv : Ledger) :
    (calculate_spacers job inv).2 = inv := by
  unfold calculate_spacers
  rcases hf : find_spacer_combo job.minimize_shims job.smart_balance
      (jobClearance job + job.kf) 0.001 0.001 inv.metal inv.plastic true 8
      with _ | sc
  · simp only [hf]
  · obtain ⟨s_combo, sfl⟩ := sc
    simp only [hf]
    rcases hrec : cutsLoop job.minimize_shims job.smart_balance job.tol_plus
        job.tol_minus (runOffset job) job.kf job.km (jobClearance job)
        (List.enumFrom 1 job.cuts)
        (shoulderDecrement inv.metal inv.plastic s_combo).1
        (shoulderDecrement inv.metal inv.plastic s_combo).2 with e | res2
    · simp only [hrec]
    · obtain ⟨recs, jm2, jp2⟩ := res2
      simp only [hrec]

/-- C8: for every cut record of a successful run, the male search target
equals (the committed female combo's sum + the run's single deflection
offset) − (femaleKnife + maleKnife + 2 × clearance); and because the male
search uses the fixed tolerance (0.001, 0.001) rather than the job's cut
tolerances, the male combo's rounded sum lies within 0.001 of that target. -/
theorem calculate_spacers_male_target (job : Job) (inv : Ledger)
    (res : RunResult) (h : (calculate_spacers job inv).1 = .ok res) :
    ∀ cr ∈ res.cutRecords,
      cr.maleTarget = (cr.femaleCombo.sum + runOffset job)
          - (job.kf + job.km + 2 * jobClearance job) ∧
      cr.maleTarget - 0.001 ≤ round4 cr.maleCombo.sum ∧
      round4 cr.maleCombo.sum ≤ cr.maleTarget + 0.001 := by
  unfold calculate_spacers at h
  rcases hf : find_spacer_combo job.minimize_shims job.smart_balance
      (jobClearance job + job.kf) 0.001 0.001 inv.metal inv.plastic true 8
      with _ | sc
  · simp only [hf] at h
    exact absurd h (by simp)
  · obtain ⟨s_combo, sfl⟩ := sc
    simp only [hf] at h
    rcases hrec : cutsLoop job.minimize_shims job.smart_balance job.tol_plus
        job.tol_minus (runOffset job) job.kf job.km (jobClearance job)
        (List.enumFrom 1 job.cuts)
        (shoulderDecrement inv.metal inv.plastic s_combo).1
        (shoulderDecrement inv.metal inv.plastic s_combo).2 with e | res2
    · simp only [hrec] at h
      exact absurd h (by simp)
    · obtain ⟨recs, jm2, jp2⟩ := res2
      simp only [hrec, Except.ok.injEq] at h
      intro cr hcr
      have h2 : res.cutRecords = recs := by
        rw [← h]
      rw [h2] at hcr
      have h3 := cutsLoop_records (List.enumFrom 1 job.cuts)
        job.minimize_shims job.smart_balance job.tol_plus job.tol_minus
        (runOffset job) job.kf job.km (jobClearance job) _ _ recs jm2 jp2
        hrec cr hcr
      exact ⟨h3.1, h3.2.2.1, h3.2.2.2⟩

/-- C8 witness: the one-cut `exampleJob` on `exampleLedger` produces the cut
record with female combo `[1, 1, 1]`, male target 1 and male combo `[1]`,
and the theorem's equations hold for it. -/
theorem calculate_spacers_male_target_witness :
    (calculate_spacers exampleJob exampleLedger).1
      = .ok ⟨1, [1], [⟨1, [1, 1, 1], 3, 1, [1], true⟩], 0⟩ ∧
    ((⟨1, [1, 1, 1], 3, 1, [1], true⟩ : CutRecord).maleTarget
        = ((⟨1, [1, 1, 1], 3, 1, [1], true⟩ : CutRecord).femaleCombo.sum
            + runOffset exampleJob)
          - (exampleJob.kf + exampleJob.km + 2 * jobClearance exampleJob) ∧
      (⟨1, [1, 1, 1], 3, 1, [1], true⟩ : CutRecord).maleTarget - 0.001
        ≤ round4 ((⟨1, [1, 1, 1], 3, 1, [1], true⟩ : CutRecord).maleCombo.sum) ∧
      round4 ((⟨1, [1, 1, 1], 3, 1, [1], true⟩ : CutRecord).maleCombo.sum)
        ≤ (⟨1, [1, 1, 1], 3, 1, [1], true⟩ : CutRecord).maleTarget + 0.001) :=
  ⟨by rfl,
    calculate_spacers_male_target exampleJob exampleLedger
      ⟨1, [1], [⟨1, [1, 1, 1], 3, 1, [1], true⟩], 0⟩ (by rfl)
      ⟨1, [1, 1, 1], 3, 1, [1], true⟩ (List.mem_singleton.mpr rfl)⟩

/-- C9: the deflection offset of a run is 0 when auto-deflection is disabled;
when enabled it equals `get_deflection_offset`, which is 0.0005 for Aluminum
at any thickness, 0.0015 for Galvanized or Stainless above thickness 0.030
and 0.0010 at or below it, and 0 for any other material tag.
`get_deflection_offset` is a pure function of material and thickness alone
(the embedding gives it no other state to read). -/
theorem deflection_offset_spec (job : Job) :
    (job.auto_deflect = false → runOffset job = 0) ∧
    (job.auto_deflect = true →
        runOffset job = get_deflection_offset job.material job.thickness) ∧
    get_deflection_offset "Aluminum" job.thickness = 0.0005 ∧
    ((job.material = "Galvanized" ∨ job.material = "Stainless") →
        (0.030 < job.thickness →
            get_deflection_offset job.material job.thickness = 0.0015) ∧
        (¬ 0.030 < job.thickness →
            get_deflection_offset job.material job.thickness = 0.0010)) ∧
    (job.material ≠ "Aluminum" → job.material ≠ "Galvanized" →
        job.material ≠ "Stainless" →
        get_deflection_offset job.material job.thickness = 0) := by
  refine ⟨?_, ?_, ?_, ?_, ?_⟩
  · intro hd
    simp [runOffset, hd]
  · intro hd
    simp [runOffset, hd]
  · unfold get_deflection_offset
    rw [if_pos rfl]
  · intro hm
    constructor <;> intro ht <;> unfold get_deflection_offset
    · rcases hm with hm | hm <;> rw [hm]
      · rw [if_neg (by decide), if_pos (Or.inl rfl), if_pos ht]
      · rw [if_neg (by decide), if_pos (Or.inr rfl), if_pos ht]
    · rcases hm with hm | hm <;> rw [hm]
      · rw [if_neg (by decide), if_pos (Or.inl rfl), if_neg ht]
      · rw [if_neg (by decide), if_pos (Or.inr rfl), if_neg ht]
  · intro h1 h2 h3
    unfold get_deflection_offset
    rw [if_neg h1, if_neg (by simp [h2, h3])]

/-- C9 witness: Example 3 of the spec: Aluminum at 0.04 gives 0.0005,
Stainless at 0.04 gives 0.0015 (thickness above 0.030), and a disabled
auto-deflect toggle gives offset 0. -/
theorem deflection_offset_spec_witness :
    get_deflection_offset "Aluminum" 0.04 = 0.0005 ∧
    get_deflection_offset "Stainless" 0.04 = 0.0015 ∧
    runOffset exampleJob = 0 := by
  refine ⟨?_, ?_, ?_⟩
  · exact (deflection_offset_spec
      ⟨[], 0.04, 0, 0, 0, 0, 0, 0, 0, "Stainless", true, true, true⟩).2.2.1
  · exact ((deflection_offset_spec
      ⟨[], 0.04, 0, 0, 0, 0, 0, 0, 0, "Stainless", true, true, true⟩).2.2.2.1
        (Or.inr rfl)).1 (by norm_num)
  · exact (deflection_offset_spec exampleJob).1 rfl

/-- C10: noninterference of the unused toggles: two `find_spacer_combo`
calls that agree on target, tolerances, both inventory views, the material
preference and the stack bound return identical results (combo and purity
flag) for any values of the `Minimize Plastic Shims` and `Smart Inventory
Balancing` toggles, which the function reads into locals at entry and never
uses. -/
theorem find_spacer_combo_toggle_independent
    (ms1 ss1 ms2 ss2 : Bool) (t tp tm : ℚ) (M P : Pool) (pm : Bool)
    (k : ℕ) :
    find_spacer_combo ms1 ss1 t tp tm M P pm k
      = find_spacer_combo ms2 ss2 t tp tm M P pm k := rfl
